import Mathlib

/-!
Verification of the word-cloud layout engine (`rust_wcloud`).

This file shallowly embeds the core of the repository:

* `src/sat.rs` — the summed-area-table occupancy model
  (`region_is_empty`, `find_space_for_rect`, `to_summed_area_table`);
* `src/tokenizer.rs` — the frequency analyzer
  (`keep_common_case`, `get_normalized_word_frequencies`);
* `src/lib.rs` — the placement planner
  (`place_word`'s size/rotation retry loop and `generate_from_text`'s
  per-word driver loop).

Modelling conventions:

* machine integers (`u32`, `usize`) become `ℕ`; the signed query in
  `region_is_empty` is computed in `ℤ`, exactly as the Rust code casts the
  four `u32` lookups to `i32` before subtracting (two's-complement overflow of
  these casts is not modelled: the claims under study concern the exact sums);
* `f32`/`f64` font sizes, frequencies and the rotate chance become `ℚ`; the
  claims settled here concern control flow and exact comparisons, not
  floating-point rounding;
* slice reads `table[i]` become `List.getD table i 0`; a separate list of the
  read indices (`regionAccesses`) states the bounds-safety claims;
* Rust `HashMap`s are iterated in an unspecified order, so a map value is
  embedded as an association list quantified over arbitrary orderings
  (permutations), or — for the case-fold grouping map — as the canonical list
  of distinct keys paired with the entries belonging to each key;
* the external collaborators (glyph rasterizer, `jieba` segmenter, image
  buffers, `WyRand`) stay abstract: glyph metrics are a function parameter
  `measure`, the occupancy/rng state threaded through the driver loop is an
  opaque type parameter, and `find_space_for_rect`'s reservoir-sampled point
  is dropped in `placeWordLoop` (during one `place_word` call the table is
  fixed, so whether *some* free anchor exists — which is all the retry logic
  inspects — does not depend on the sampler stream);
* fallible code returns `Except` (`place_word`'s `Result`, and the
  `expect("There are no words!")` panic in `generate_from_text`).
-/

/-! ### `src/sat.rs` : summed-area table -/

/-- One pass of the inner closure of `to_summed_area_table`
(`src/sat.rs` lines 76-84): walk a row together with `prev_row`, replacing
each element by `el + sum + prev_row_el` where `sum` is the running total of
the *original* row values seen so far.  Like `Iterator::zip`, the walk stops
when `prev` is exhausted. -/
def satRowAux : ℕ → List ℕ → List ℕ → List ℕ
  | _, [], _ => []
  | _, el :: els, [] => el :: els
  | s, el :: els, pe :: pes => (el + s + pe) :: satRowAux (s + el) els pes

/-- The `for_each` over the row chunks of `to_summed_area_table`
(`src/sat.rs` lines 73-87): each processed row becomes the new `prev_row`
(`prev_row.clone_from_slice(row)`). -/
def satRows : List ℕ → List (List ℕ) → List (List ℕ)
  | _, [] => []
  | prev, row :: rest =>
    let r := satRowAux 0 row prev
    r :: satRows r rest

/-- `chunks_exact_mut(width)` splits into `len / width` full chunks. -/
def chunksGo (w : ℕ) : ℕ → List ℕ → List (List ℕ)
  | 0, _ => []
  | n + 1, l => l.take w :: chunksGo w n (l.drop w)

/-- The full chunks of `chunks_exact_mut(width)`. -/
def chunksExact (w : ℕ) (l : List ℕ) : List (List ℕ) :=
  chunksGo w (l.length / w) l

/-- The remainder that `chunks_exact_mut(width)` leaves untouched. -/
def chunksRem (w : ℕ) (l : List ℕ) : List ℕ :=
  l.drop (l.length / w * w)

/-- `to_summed_area_table(table, width, start_row)` (`src/sat.rs` lines
71-88): rows before `start_row` are skipped (left unchanged), the remaining
full rows are rewritten by `satRows` seeded with `prev_row = vec![0; width]`,
and any trailing partial chunk is untouched.  (`chunks_exact_mut` requires a
positive chunk size; `width = 0` is embedded as a no-op.) -/
def toSummedAreaTable (table : List ℕ) (width startRow : ℕ) : List ℕ :=
  if width = 0 then table
  else
    let rows := chunksExact width table
    ((rows.take startRow ++ satRows (List.replicate width 0) (rows.drop startRow)).flatten)
      ++ chunksRem width table

/-- `region_is_empty(table, table_width, x, y, width, height)`
(`src/sat.rs` lines 15-30): four table lookups, compared in signed
arithmetic: `tl + br - tr - bl == 0`. -/
def regionIsEmpty (table : List ℕ) (tableWidth x y width height : ℕ) : Bool :=
  let tl := table.getD (y * tableWidth + x) 0
  let tr := table.getD (y * tableWidth + x + width) 0
  let bl := table.getD ((y + height) * tableWidth + x) 0
  let br := table.getD ((y + height) * tableWidth + x + width) 0
  decide ((tl : ℤ) + br - tr - bl = 0)

/-- The four table indices read by one `region_is_empty` call, in source
order `tl, tr, bl, br` (`src/sat.rs` lines 23-27). -/
def regionAccesses (tableWidth x y width height : ℕ) : List ℕ :=
  [y * tableWidth + x,
   y * tableWidth + x + width,
   (y + height) * tableWidth + x,
   (y + height) * tableWidth + x + width]

/-- The anchors `(x, y)` scanned by `find_space_for_rect` (`src/sat.rs`
lines 40-48): `y` ranges over `0..table_height - rect.height`, and for each
`y`, `x` ranges over `0..table_width - rect.width`. -/
def findSpaceAnchors (tableWidth tableHeight w h : ℕ) : List (ℕ × ℕ) :=
  (List.range (tableHeight - h)).flatMap fun y =>
    (List.range (tableWidth - w)).map fun x => (x, y)

/-- Whether `find_space_for_rect` returns `Some`: the reservoir sampler keeps
a point exactly when at least one scanned anchor passes `region_is_empty`
(the rng only chooses *which* free anchor is returned). -/
def findSpaceSome (table : List ℕ) (tableWidth tableHeight w h : ℕ) : Bool :=
  (findSpaceAnchors tableWidth tableHeight w h).any fun a =>
    regionIsEmpty table tableWidth a.1 a.2 w h

/-! ### Spec-side summed-area-table semantics

These definitions follow the spec's words ("cell `(x,y)` holds the sum of all
occupancy values in the rectangle `[0,x] × [0,y]`") to compare the code's
query against a brute-force cell scan. -/

/-- A cell of an occupancy grid given as a list of rows; out-of-range reads
are 0. -/
def gridCell (rows : List (List ℕ)) (y x : ℕ) : ℕ :=
  (rows.getD y []).getD x 0

/-- Modelled from the spec: the mathematical summed-area value at `(x, y)`,
the sum of all grid cells in `[0, x] × [0, y]`. -/
def satValue (rows : List (List ℕ)) (y x : ℕ) : ℕ :=
  Finset.sum (Finset.range (y + 1)) fun i =>
    Finset.sum (Finset.range (x + 1)) fun j => gridCell rows i j

/-- A signed read of a flattened table at a possibly negative coordinate:
out-of-range terms are 0.  Used to state the spec's invariant
`table[y][x] = table[y-1][x] + table[y][x-1] - table[y-1][x-1] + grid[y][x]`. -/
def tableAt (t : List ℕ) (tw : ℕ) (y x : ℤ) : ℤ :=
  if y < 0 ∨ x < 0 then 0 else (t.getD (y.toNat * tw + x.toNat) 0 : ℤ)

/-- Modelled from the spec: the summed-area-table recurrence at cell
`(x, y)` of a flattened table `t` over a flattened grid `g`, with
out-of-range terms equal to 0. -/
def satInvariantAt (t g : List ℕ) (tw : ℕ) (y x : ℕ) : Prop :=
  tableAt t tw y x =
    tableAt t tw ((y : ℤ) - 1) x + tableAt t tw y ((x : ℤ) - 1)
      - tableAt t tw ((y : ℤ) - 1) ((x : ℤ) - 1) + (g.getD (y * tw + x) 0 : ℤ)

instance (t g : List ℕ) (tw y x : ℕ) : Decidable (satInvariantAt t g tw y x) := by
  unfold satInvariantAt; infer_instance

/-! ### `src/lib.rs` : `place_word` and the driver loop -/

/-- `WordCloud::check_font_size` (`src/lib.rs` lines 337-345). -/
def checkFontSize (fontSize fontStep minFontSize : ℚ) : Option ℚ :=
  let next := fontSize - fontStep
  if minFontSize ≤ next ∧ 0 < next then some next else none

/-- The `rng.generate::<u8>() <= (255.0 * word_rotate_chance) as u8` test of
`place_word` (`src/lib.rs` line 258): the `as u8` cast truncates the product
toward zero (for a chance in `[0, 1]` the product lies in `[0, 255]`). -/
def rotateThreshold (chance : ℚ) : ℕ :=
  Nat.floor (255 * chance)

/-- Whether a drawn byte `r` makes the word start rotated
(`src/lib.rs` line 258; the source spells the variable `shold_rotate`). -/
def sholdRotateDraw (chance : ℚ) (r : ℕ) : Bool :=
  decide (r ≤ rotateThreshold chance)

/-- How many of the 256 equally likely `u8` draws make the word start
rotated. -/
def rotateCount (chance : ℚ) : ℕ :=
  ((List.range 256).filter fun r => sholdRotateDraw chance r).length

/-- The `loop` of `place_word` (`src/lib.rs` lines 260-326), driven by a fuel
counter (the Rust loop terminates because `check_font_size` strictly
decreases the size; fuel exhaustion is embedded as the `Err` the loop would
eventually reach).  `measure fontSize` is the glyph bounding box
`(glyphs.width, glyphs.height)` of the word at that size (external glyph
metrics provider); the candidate rect swaps the two dimensions when
`sholdRotate` holds and adds `word_margin` to both.  Success returns the
font size and orientation that fit (the placed point itself is the
reservoir-sampled free anchor, abstracted away here together with the rng). -/
def placeWordLoop (measure : ℚ → ℕ × ℕ) (wordMargin tw th : ℕ) (table : List ℕ)
    (fontStep minFontSize initialFontSize : ℚ) :
    ℕ → ℚ → Bool → Bool → Except ℚ (ℚ × Bool)
  | 0, fontSize, _, _ => Except.error fontSize
  | fuel + 1, fontSize, sholdRotate, triedRotate =>
    let dims := measure fontSize
    let rect : ℕ × ℕ :=
      if sholdRotate then (dims.2 + wordMargin, dims.1 + wordMargin)
      else (dims.1 + wordMargin, dims.2 + wordMargin)
    if tw < rect.1 ∨ th < rect.2 then
      match checkFontSize fontSize fontStep minFontSize with
      | some next =>
        placeWordLoop measure wordMargin tw th table fontStep minFontSize initialFontSize
          fuel next sholdRotate triedRotate
      | none => Except.error fontSize
    else if findSpaceSome table tw th rect.1 rect.2 then
      Except.ok (fontSize, sholdRotate)
    else
      match checkFontSize fontSize fontStep minFontSize with
      | some next =>
        placeWordLoop measure wordMargin tw th table fontStep minFontSize initialFontSize
          fuel next sholdRotate triedRotate
      | none =>
        if triedRotate then Except.error fontSize
        else
          placeWordLoop measure wordMargin tw th table fontStep minFontSize initialFontSize
            fuel initialFontSize true true

/-- The per-word `for` loop of `generate_from_text` (`src/lib.rs` lines
179-235).  `place` stands for `place_word` (it consumes and returns the rng
state `σ` and reports the new font size in both outcomes); `commit` stands
for drawing the placed word into the gray buffer and rebuilding the
summed-area table.  On success the word's placement `π` is recorded and
`last_freq` becomes the word's frequency; on failure (`continue`) the loop
moves on with the returned font size, leaving `last_freq` unchanged. -/
def layoutWords {σ π : Type} (place : String → ℚ → σ → Except ℚ (π × ℚ) × σ)
    (commit : π → σ → σ) (repeatTok : Bool) (relativeScaling minFontSize : ℚ) :
    List (String × ℚ) → ℚ → ℚ → σ → List π
  | [], _, _, _ => []
  | (word, freq) :: rest, fontSize, lastFreq, st =>
    let fs1 :=
      if ¬ repeatTok ∧ relativeScaling ≠ 0 then
        fontSize * (relativeScaling * (freq / lastFreq) + (1 - relativeScaling))
      else fontSize
    if fs1 < minFontSize then []
    else
      match place word fs1 st with
      | (Except.ok (pl, newFs), st1) =>
        pl :: layoutWords place commit repeatTok relativeScaling minFontSize
          rest newFs freq (commit pl st1)
      | (Except.error newFs, st1) =>
        layoutWords place commit repeatTok relativeScaling minFontSize
          rest newFs lastFreq st1

/-- `generate_from_text` (`src/lib.rs` lines 114-246) at the granularity the
claims need: the analyzed word list is checked for a first word
(`words.first().expect("There are no words!")`, embedded as `Except.error`),
the starting font size is derived from the first word by the canvas
heuristic (`startFontSize`, lines 159-177), `last_freq` starts at 1, and the
driver loop runs over all words.  Pixel compositing of the resulting
placements is external and not modelled. -/
def generateFromText {σ π : Type} (place : String → ℚ → σ → Except ℚ (π × ℚ) × σ)
    (commit : π → σ → σ) (repeatTok : Bool) (relativeScaling minFontSize : ℚ)
    (startFontSize : String → ℚ) (st0 : σ) (words : List (String × ℚ)) :
    Except String (List π) :=
  match words with
  | [] => Except.error "There are no words!"
  | (w, _) :: _ =>
    Except.ok (layoutWords place commit repeatTok relativeScaling minFontSize
      words (startFontSize w) 1 st0)

/-! ### `src/tokenizer.rs` : frequency analysis -/

/-- `str::to_lowercase` modelled on the character list of the string
(ASCII-faithful; the full Unicode mapping lives in Rust's standard
library). -/
def strToLower (s : String) : String :=
  String.mk (s.data.map Char.toLower)

/-- `&str` ordering — byte-wise lexicographic in Rust, which on valid UTF-8
coincides with lexicographic comparison of the code-point sequences. -/
def strLe (a b : String) : Prop :=
  a.data ≤ b.data

instance : DecidableRel strLe := fun a b => by
  unfold strLe; infer_instance

/-- The comparator of `get_normalized_word_frequencies`
(`src/tokenizer.rs` lines 154-160) as the relation "`a` sorts no later than
`b`": strictly greater weight first, ties by ascending surface form. -/
def freqLe (a b : String × ℚ) : Prop :=
  b.2 < a.2 ∨ (a.2 = b.2 ∧ strLe a.1 b.1)

instance : DecidableRel freqLe := fun a b => by
  unfold freqLe; infer_instance

/-- The comparator inside `keep_common_case` (`src/tokenizer.rs` lines
122-128) as the relation "`a` sorts no later than `b`": strictly greater
count first, ties by *descending* surface form. -/
def grpLe (a b : String × ℕ) : Prop :=
  b.2 < a.2 ∨ (a.2 = b.2 ∧ strLe b.1 a.1)

instance : DecidableRel grpLe := fun a b => by
  unfold grpLe; infer_instance

/-- `frequencies.values().max()` modelled on the association-list view of the
map (the `max` of an empty map is never used: the caller returns early). -/
def maxCount (counts : List ℕ) : ℕ :=
  counts.foldr max 0

/-- The distinct lower-cased keys of the frequency map — the key set of the
`HashMap<String, CaseCounts>` built by `keep_common_case`
(`src/tokenizer.rs` lines 106-112). -/
def lowerClasses (l : List (String × ℕ)) : List String :=
  (l.map fun kv => strToLower kv.1).dedup

/-- The grouping map of `keep_common_case`: each distinct lower-cased key
paired with the `(surface form, count)` entries that fold to it.  A
`HashMap` is canonically embedded as its key set paired with each key's
entries. -/
def groupByLower (l : List (String × ℕ)) : List (String × List (String × ℕ)) :=
  (lowerClasses l).map fun lc => (lc, l.filter fun kv => strToLower kv.1 = lc)

/-- `keep_common_case` (`src/tokenizer.rs` lines 103-135): for every
lower-case group, sort the group's `(surface form, count)` pairs by the
comparator (count descending, then surface form descending), keep the first
as the representative, and sum the group's counts. -/
def keepCommonCase (l : List (String × ℕ)) : List (String × ℕ) :=
  (groupByLower l).map fun g =>
    (((List.insertionSort grpLe g.2).headD ("", 0)).1, (g.2.map Prod.snd).sum)

/-- `get_normalized_word_frequencies` (`src/tokenizer.rs` lines 137-167)
from the association-list view of the frequency map produced by
`keep_common_case`: empty input short-circuits to `[]`; otherwise every
count is divided by the maximum count, the result is sorted weight
descending with ties by ascending surface form, and truncated to
`max_words` when `max_words > 0`. -/
def getNormalizedWordFrequencies (freqs : List (String × ℕ)) (maxWords : ℕ) :
    List (String × ℚ) :=
  if freqs = [] then []
  else
    let maxFreq : ℚ := (maxCount (freqs.map Prod.snd) : ℚ)
    let normalized := freqs.map fun kv => (kv.1, (kv.2 : ℚ) / maxFreq)
    let sorted := List.insertionSort freqLe normalized
    if 0 < maxWords then sorted.take maxWords else sorted

/-! ## Helper lemmas -/

/-- A row-major cell index is within a `tableWidth * tableHeight` table. -/
theorem rowCol_lt {tw th r c : ℕ} (hr : r < th) (hc : c < tw) :
    r * tw + c < tw * th := by
  calc r * tw + c < r * tw + tw := by omega
    _ = (r + 1) * tw := by ring
    _ ≤ th * tw := Nat.mul_le_mul_right tw hr
    _ = tw * th := Nat.mul_comm th tw

/-- Counting the bytes `r < n` with `r ≤ t`. -/
theorem length_filter_range_le (t : ℕ) :
    ∀ n : ℕ, t < n →
      ((List.range n).filter fun r => decide (r ≤ t)).length = t + 1 := by
  intro n
  induction n with
  | zero => omega
  | succ m ih =>
    intro h
    rw [List.range_succ, List.filter_append, List.length_append]
    by_cases hm : m ≤ t
    · have hmt : m = t := by omega
      subst hmt
      have : ((List.range m).filter fun r => decide (r ≤ m)) = List.range m := by
        apply List.filter_eq_self.mpr
        intro a ha
        simp only [List.mem_range] at ha
        simpa using Nat.le_of_lt ha
      simp [this]
    · have : t < m := by omega
      rw [ih this]
      simp [hm]

/-! ## Claim C2 -/

/-- Claim C2 (failing-input evaluation): on the 1-wide, 2-row table
`[1, 0]` whose row 0 already holds its summed-area value for the grid
`[1, 0]` (as the comparison with a full rebuild from row 0 shows),
`to_summed_area_table` with `start_row = 1` produces `[1, 0]`, and the
summed-area invariant `table[y][x] = table[y-1][x] + table[y][x-1] -
table[y-1][x-1] + grid[y][x]` fails at `y = 1, x = 0`: the rebuilt row is
seeded with `prev_row = 0` instead of the values of row 0. -/
theorem toSummedAreaTable_startRow_bug :
    toSummedAreaTable [1, 0] 1 1 = [1, 0]
    ∧ ([1, 0] : List ℕ).take 1 = (toSummedAreaTable [1, 0] 1 0).take 1
    ∧ ¬ satInvariantAt (toSummedAreaTable [1, 0] 1 1) [1, 0] 1 1 0 := by
  refine ⟨rfl, rfl, ?_⟩
  decide

/-! ## Claim C9 -/

/-- Claim C9 (counterexample): at `word_rotate_chance = 0` the number of
`u8` draws passing the rotation test is 1 (the draw `r = 0` passes
`0 <= (255.0 * 0.0) as u8`), not `256 * 0 = 0`; in particular a word can
start rotated even at chance 0. -/
theorem rotateCount_zero_counterexample :
    (rotateCount 0 : ℚ) ≠ 256 * 0 ∧ sholdRotateDraw 0 0 = true := by
  have ht : rotateThreshold 0 = 0 := by simp [rotateThreshold]
  constructor
  · have h : rotateCount 0 = 1 := by
      unfold rotateCount sholdRotateDraw
      simp only [ht]
      exact length_filter_range_le 0 256 (by omega)
    rw [h]
    norm_num
  · simp [sholdRotateDraw, ht]

/-- Claim C9 (amended): for every chance `c ∈ [0, 1]`, the number of the 256
equally likely `u8` draws that make the word start rotated is
`⌊255 c⌋ + 1`, not `256 c`; at `c = 1` this is all 256 draws (every word
starts rotated), while at `c = 0` one draw in 256 still rotates. -/
theorem rotateCount_eq (chance : ℚ) (h0 : 0 ≤ chance) (h1 : chance ≤ 1) :
    rotateCount chance = Nat.floor (255 * chance) + 1
    ∧ (chance = 1 → rotateCount chance = 256) := by
  have hth : rotateThreshold chance ≤ 255 := by
    have h255 : (255 : ℚ) * chance ≤ 255 := by nlinarith
    have := Nat.floor_le_floor h255
    simpa [rotateThreshold] using this
  have hcount : rotateCount chance = rotateThreshold chance + 1 := by
    unfold rotateCount sholdRotateDraw
    exact length_filter_range_le (rotateThreshold chance) 256 (by omega)
  refine ⟨by simpa [rotateThreshold] using hcount, fun hc => ?_⟩
  subst hc
  rw [hcount]
  norm_num [rotateThreshold]

/-- Witness for `rotateCount_eq` at `chance = 1/2`. -/
theorem rotateCount_eq_witness :
    (0 : ℚ) ≤ 1 / 2 ∧ (1 : ℚ) / 2 ≤ 1
    ∧ (rotateCount (1 / 2) = Nat.floor ((255 : ℚ) * (1 / 2)) + 1
        ∧ ((1 : ℚ) / 2 = 1 → rotateCount (1 / 2) = 256)) :=
  ⟨by norm_num, by norm_num, rotateCount_eq (1 / 2) (by norm_num) (by norm_num)⟩

/-! ## Claim C7 -/

/-- Claim C7: when relative font scaling is active (`repeat` off and a
nonzero scaling factor) and the scaled size computed for the next word drops
below `min_font_size`, the driver loop `break`s: no placement is produced
for that word *or any later word* — the run's placement sequence ends there
(it does not skip just this word and continue). -/
theorem layoutWords_stops_below_min {σ π : Type}
    (place : String → ℚ → σ → Except ℚ (π × ℚ) × σ) (commit : π → σ → σ)
    (relativeScaling minFontSize fontSize lastFreq freq : ℚ) (word : String)
    (rest : List (String × ℚ)) (st : σ)
    (hscale : relativeScaling ≠ 0)
    (hbelow : fontSize * (relativeScaling * (freq / lastFreq) + (1 - relativeScaling))
        < minFontSize) :
    layoutWords place commit false relativeScaling minFontSize
      ((word, freq) :: rest) fontSize lastFreq st = [] := by
  simp [layoutWords, hscale, hbelow]

/-- Witness for `layoutWords_stops_below_min`: scaling `1/2`, the word
`"cat"` scales from size 1 to size 1 which is below `min_font_size = 2`, so
the run ends with no placement even though another word is queued. -/
theorem layoutWords_stops_below_min_witness :
    ((1 : ℚ) / 2 ≠ 0
      ∧ (1 : ℚ) * ((1 / 2) * ((1 : ℚ) / (1 : ℚ)) + (1 - 1 / 2)) < 2)
    ∧ layoutWords (σ := Unit) (π := Unit)
        (fun _ _ s => (Except.error 0, s)) (fun _ s => s) false (1 / 2) 2
        [("cat", 1), ("dog", 1)] 1 1 () = [] :=
  ⟨⟨by norm_num, by norm_num⟩,
    layoutWords_stops_below_min _ _ _ _ _ _ _ _ _ _ (by norm_num) (by norm_num)⟩

/-! ## Claim C8 -/

/-- Claim C8: when frequency analysis yields no words, `generate_from_text`
aborts with the descriptive condition `"There are no words!"` (the
`expect` panic on `words.first()`) instead of producing an image. -/
theorem generateFromText_no_words {σ π : Type}
    (place : String → ℚ → σ → Except ℚ (π × ℚ) × σ) (commit : π → σ → σ)
    (repeatTok : Bool) (relativeScaling minFontSize : ℚ)
    (startFontSize : String → ℚ) (st0 : σ)
    (freqs : List (String × ℕ)) (maxWords : ℕ)
    (h : getNormalizedWordFrequencies freqs maxWords = []) :
    generateFromText place commit repeatTok relativeScaling minFontSize
        startFontSize st0 (getNormalizedWordFrequencies freqs maxWords)
      = Except.error "There are no words!" := by
  rw [h]
  rfl

/-- Witness for `generateFromText_no_words`: the empty frequency map. -/
theorem generateFromText_no_words_witness :
    getNormalizedWordFrequencies [] 200 = []
    ∧ generateFromText (σ := Unit) (π := Unit)
        (fun _ _ s => (Except.error 0, s)) (fun _ s => s) false (1 / 2) 4
        (fun _ => 10) () (getNormalizedWordFrequencies [] 200)
      = Except.error "There are no words!" :=
  ⟨rfl, generateFromText_no_words _ _ _ _ _ _ _ [] 200 rfl⟩

/-! ## Claim C10 -/

/-- Claim C10: for a table of `table_width * table_height` entries and a
rect with `0 < w ≤ table_width` and `0 < h ≤ table_height`, every anchor
`(x, y)` scanned by `find_space_for_rect` keeps all four table reads of
`region_is_empty` strictly inside the table (and the `u32` differences
`table_width - w`, `table_height - h` bounding the scan cannot underflow,
their subtrahends being no larger than their minuends by hypothesis). -/
theorem findSpaceForRect_accesses_in_bounds (table : List ℕ) (tw th w h : ℕ)
    (hlen : table.length = tw * th) (hw0 : 0 < w) (hw : w ≤ tw)
    (hh0 : 0 < h) (hh : h ≤ th) :
    ∀ a ∈ findSpaceAnchors tw th w h,
      ∀ i ∈ regionAccesses tw a.1 a.2 w h, i < table.length := by
  intro a ha i hi
  simp only [findSpaceAnchors, List.mem_flatMap, List.mem_map, List.mem_range] at ha
  obtain ⟨y, hy, x, hx, rfl⟩ := ha
  have hxw : x + w < tw := by omega
  have hyh : y + h < th := by omega
  rw [hlen]
  simp only [regionAccesses, List.mem_cons, List.not_mem_nil, or_false] at hi
  rcases hi with rfl | rfl | rfl | rfl
  · exact rowCol_lt (by omega) (by omega)
  · have : y * tw + x + w = y * tw + (x + w) := by ring
    rw [this]
    exact rowCol_lt (by omega) hxw
  · exact rowCol_lt hyh (by omega)
  · have : (y + h) * tw + x + w = (y + h) * tw + (x + w) := by ring
    rw [this]
    exact rowCol_lt hyh hxw

/-- Witness for `findSpaceForRect_accesses_in_bounds` on a 2×2 table and a
1×1 rect. -/
theorem findSpaceForRect_accesses_in_bounds_witness :
    ((List.replicate 4 (0 : ℕ)).length = 2 * 2
      ∧ 0 < 1 ∧ 1 ≤ 2 ∧ 0 < 1 ∧ 1 ≤ 2)
    ∧ ∀ a ∈ findSpaceAnchors 2 2 1 1,
        ∀ i ∈ regionAccesses 2 a.1 a.2 1 1, i < (List.replicate 4 (0 : ℕ)).length :=
  ⟨⟨by decide, by decide, by decide, by decide, by decide⟩,
    findSpaceForRect_accesses_in_bounds (List.replicate 4 0) 2 2 1 1
      (by decide) (by decide) (by decide) (by decide) (by decide)⟩

/-! ## Claim C4 -/

/-- One unfolding of the `place_word` loop when the current orientation is
upright (`shold_rotate = false`): the candidate rect is
`(width + margin, height + margin)`. -/
theorem placeWordLoop_succ_upright (measure : ℚ → ℕ × ℕ) (wordMargin tw th : ℕ)
    (table : List ℕ) (fontStep minFontSize initialFontSize : ℚ) (fuel : ℕ)
    (fontSize : ℚ) (triedRotate : Bool) :
    placeWordLoop measure wordMargin tw th table fontStep minFontSize initialFontSize
        (fuel + 1) fontSize false triedRotate =
      if tw < (measure fontSize).1 + wordMargin ∨ th < (measure fontSize).2 + wordMargin then
        match checkFontSize fontSize fontStep minFontSize with
        | some next =>
          placeWordLoop measure wordMargin tw th table fontStep minFontSize initialFontSize
            fuel next false triedRotate
        | none => Except.error fontSize
      else if findSpaceSome table tw th ((measure fontSize).1 + wordMargin)
          ((measure fontSize).2 + wordMargin) then
        Except.ok (fontSize, false)
      else
        match checkFontSize fontSize fontStep minFontSize with
        | some next =>
          placeWordLoop measure wordMargin tw th table fontStep minFontSize initialFontSize
            fuel next false triedRotate
        | none =>
          if triedRotate then Except.error fontSize
          else
            placeWordLoop measure wordMargin tw th table fontStep minFontSize initialFontSize
              fuel initialFontSize true true := rfl

/-- One unfolding of the `place_word` loop when the current orientation is
rotated (`shold_rotate = true`): the candidate rect swaps the glyph
dimensions, `(height + margin, width + margin)`. -/
theorem placeWordLoop_succ_rotated (measure : ℚ → ℕ × ℕ) (wordMargin tw th : ℕ)
    (table : List ℕ) (fontStep minFontSize initialFontSize : ℚ) (fuel : ℕ)
    (fontSize : ℚ) (triedRotate : Bool) :
    placeWordLoop measure wordMargin tw th table fontStep minFontSize initialFontSize
        (fuel + 1) fontSize true triedRotate =
      if tw < (measure fontSize).2 + wordMargin ∨ th < (measure fontSize).1 + wordMargin then
        match checkFontSize fontSize fontStep minFontSize with
        | some next =>
          placeWordLoop measure wordMargin tw th table fontStep minFontSize initialFontSize
            fuel next true triedRotate
        | none => Except.error fontSize
      else if findSpaceSome table tw th ((measure fontSize).2 + wordMargin)
          ((measure fontSize).1 + wordMargin) then
        Except.ok (fontSize, true)
      else
        match checkFontSize fontSize fontStep minFontSize with
        | some next =>
          placeWordLoop measure wordMargin tw th table fontStep minFontSize initialFontSize
            fuel next true triedRotate
        | none =>
          if triedRotate then Except.error fontSize
          else
            placeWordLoop measure wordMargin tw th table fontStep minFontSize initialFontSize
              fuel initialFontSize true true := rfl

/-- Claim C4 (counterexample): on a 4×4 canvas whose bottom ink row blocks
every rotated (1×3) rect while an upright (3×1) rect still fits (second
conjunct), `place_word` for a word whose initial orientation is rotated
fails (`Err(1)`, sizes 2 and 1 tried twice over), because the
exhausted-search branch sets `shold_rotate = true` instead of toggling: the
retry repeats the rotated search and the existing upright placement is
never tried, contradicting "an initially rotated word retries upright". -/
theorem placeWord_rotated_no_toggle :
    placeWordLoop (fun _ => (3, 1)) 0 4 4
        (toSummedAreaTable [0, 0, 0, 0, 0, 0, 0, 0, 0, 0, 0, 0, 0, 1, 1, 1] 4 0)
        1 1 2 4 2 true false
      = Except.error 1
    ∧ findSpaceSome
        (toSummedAreaTable [0, 0, 0, 0, 0, 0, 0, 0, 0, 0, 0, 0, 0, 1, 1, 1] 4 0)
        4 4 3 1 = true := by
  have hc1 : checkFontSize 2 1 1 = some 1 := by unfold checkFontSize; norm_num
  have hc2 : checkFontSize 1 1 1 = none := by unfold checkFontSize; norm_num
  constructor
  · have e1 : placeWordLoop (fun _ => (3, 1)) 0 4 4
          (toSummedAreaTable [0, 0, 0, 0, 0, 0, 0, 0, 0, 0, 0, 0, 0, 1, 1, 1] 4 0)
          1 1 2 4 2 true false
        = placeWordLoop (fun _ => (3, 1)) 0 4 4
          (toSummedAreaTable [0, 0, 0, 0, 0, 0, 0, 0, 0, 0, 0, 0, 0, 1, 1, 1] 4 0)
          1 1 2 3 1 true false := by
      rw [placeWordLoop_succ_rotated _ _ _ _ _ _ _ _ 3 2 false,
        if_neg (by decide), if_neg (by decide), hc1]
    have e2 : placeWordLoop (fun _ => (3, 1)) 0 4 4
          (toSummedAreaTable [0, 0, 0, 0, 0, 0, 0, 0, 0, 0, 0, 0, 0, 1, 1, 1] 4 0)
          1 1 2 3 1 true false
        = placeWordLoop (fun _ => (3, 1)) 0 4 4
          (toSummedAreaTable [0, 0, 0, 0, 0, 0, 0, 0, 0, 0, 0, 0, 0, 1, 1, 1] 4 0)
          1 1 2 2 2 true true := by
      rw [placeWordLoop_succ_rotated _ _ _ _ _ _ _ _ 2 1 false,
        if_neg (by decide), if_neg (by decide), hc2]
      rfl
    have e3 : placeWordLoop (fun _ => (3, 1)) 0 4 4
          (toSummedAreaTable [0, 0, 0, 0, 0, 0, 0, 0, 0, 0, 0, 0, 0, 1, 1, 1] 4 0)
          1 1 2 2 2 true true
        = placeWordLoop (fun _ => (3, 1)) 0 4 4
          (toSummedAreaTable [0, 0, 0, 0, 0, 0, 0, 0, 0, 0, 0, 0, 0, 1, 1, 1] 4 0)
          1 1 2 1 1 true true := by
      rw [placeWordLoop_succ_rotated _ _ _ _ _ _ _ _ 1 2 true,
        if_neg (by decide), if_neg (by decide), hc1]
    have e4 : placeWordLoop (fun _ => (3, 1)) 0 4 4
          (toSummedAreaTable [0, 0, 0, 0, 0, 0, 0, 0, 0, 0, 0, 0, 0, 1, 1, 1] 4 0)
          1 1 2 1 1 true true
        = Except.error 1 := by
      rw [placeWordLoop_succ_rotated _ _ _ _ _ _ _ _ 0 1 true,
        if_neg (by decide), if_neg (by decide), hc2]
      rfl
    rw [e1, e2, e3, e4]
  · decide

/-- Claim C4 (amended): when a word's search exhausts all font sizes down to
`min_font_size` in its current orientation, `place_word` retries exactly
once from the word's original font size with `shold_rotate` *set to*
rotated — not toggled.  (a) An initially upright word restarts at the
original size in the rotated orientation; (b) an initially rotated word
therefore retries the same rotated search, and if no rotated rect ever
finds space the word fails, whatever the upright searches would find. -/
theorem placeWordLoop_retry_sets_rotated (measure : ℚ → ℕ × ℕ)
    (wordMargin tw th : ℕ) (table : List ℕ)
    (fontStep minFontSize initialFontSize : ℚ) :
    (∀ (fuel : ℕ) (fontSize : ℚ),
      ¬ (tw < (measure fontSize).1 + wordMargin ∨ th < (measure fontSize).2 + wordMargin) →
      findSpaceSome table tw th ((measure fontSize).1 + wordMargin)
          ((measure fontSize).2 + wordMargin) = false →
      checkFontSize fontSize fontStep minFontSize = none →
      placeWordLoop measure wordMargin tw th table fontStep minFontSize initialFontSize
          (fuel + 1) fontSize false false
        = placeWordLoop measure wordMargin tw th table fontStep minFontSize initialFontSize
          fuel initialFontSize true true)
    ∧ (∀ (fuel : ℕ) (fontSize : ℚ) (triedRotate : Bool),
      (∀ s : ℚ, findSpaceSome table tw th ((measure s).2 + wordMargin)
          ((measure s).1 + wordMargin) = false) →
      ∃ e, placeWordLoop measure wordMargin tw th table fontStep minFontSize initialFontSize
          fuel fontSize true triedRotate = Except.error e) := by
  constructor
  · intro fuel fontSize hguard hsearch hcheck
    rw [placeWordLoop_succ_upright, if_neg hguard, if_neg (by simp [hsearch]), hcheck]
    rfl
  · intro fuel
    induction fuel with
    | zero => intro fontSize triedRotate _; exact ⟨fontSize, rfl⟩
    | succ n ih =>
      intro fontSize triedRotate hfits
      rw [placeWordLoop_succ_rotated]
      by_cases hguard : tw < (measure fontSize).2 + wordMargin
          ∨ th < (measure fontSize).1 + wordMargin
      · rw [if_pos hguard]
        rcases hc : checkFontSize fontSize fontStep minFontSize with _ | next
        · exact ⟨fontSize, rfl⟩
        · exact ih next triedRotate hfits
      · rw [if_neg hguard, if_neg (by simp [hfits fontSize])]
        rcases hc : checkFontSize fontSize fontStep minFontSize with _ | next
        · cases triedRotate
          · exact ih initialFontSize true hfits
          · exact ⟨fontSize, rfl⟩
        · exact ih next triedRotate hfits

/-- Witness for `placeWordLoop_retry_sets_rotated` on a fully occupied 4×4
canvas: part (a) at size 2 with `min_font_size = 2` (no decay possible)
restarts rotated at the original size 7; part (b) reports failure for an
initially rotated word. -/
theorem placeWordLoop_retry_sets_rotated_witness :
    (¬ ((4 : ℕ) < ((fun _ : ℚ => ((3 : ℕ), (1 : ℕ))) (2 : ℚ)).1 + 0
        ∨ (4 : ℕ) < ((fun _ : ℚ => ((3 : ℕ), (1 : ℕ))) (2 : ℚ)).2 + 0)
      ∧ findSpaceSome (toSummedAreaTable (List.replicate 16 1) 4 0) 4 4
          (((fun _ : ℚ => ((3 : ℕ), (1 : ℕ))) (2 : ℚ)).1 + 0)
          (((fun _ : ℚ => ((3 : ℕ), (1 : ℕ))) (2 : ℚ)).2 + 0) = false
      ∧ checkFontSize 2 1 2 = none
      ∧ placeWordLoop (fun _ : ℚ => ((3 : ℕ), (1 : ℕ))) 0 4 4
          (toSummedAreaTable (List.replicate 16 1) 4 0) 1 2 7 (0 + 1) 2 false false
        = placeWordLoop (fun _ : ℚ => ((3 : ℕ), (1 : ℕ))) 0 4 4
          (toSummedAreaTable (List.replicate 16 1) 4 0) 1 2 7 0 7 true true)
    ∧ (∃ e, placeWordLoop (fun _ : ℚ => ((3 : ℕ), (1 : ℕ))) 0 4 4
          (toSummedAreaTable (List.replicate 16 1) 4 0) 1 2 7 2 5 true false
        = Except.error e) := by
  have hcheck : checkFontSize 2 1 2 = none := by unfold checkFontSize; norm_num
  refine ⟨⟨by decide, by decide, hcheck, ?_⟩, ?_⟩
  · exact (placeWordLoop_retry_sets_rotated (fun _ : ℚ => ((3 : ℕ), (1 : ℕ))) 0 4 4
      (toSummedAreaTable (List.replicate 16 1) 4 0) 1 2 7).1 0 2
      (by decide) (by decide) hcheck
  · exact (placeWordLoop_retry_sets_rotated (fun _ : ℚ => ((3 : ℕ), (1 : ℕ))) 0 4 4
      (toSummedAreaTable (List.replicate 16 1) 4 0) 1 2 7).2 2 5 false
      (fun s => by decide)

/-! ## Order properties of the two sort comparators -/

theorem strLe_refl (a : String) : strLe a a :=
  le_refl a.data

theorem strLe_trans {a b c : String} (h1 : strLe a b) (h2 : strLe b c) :
    strLe a c :=
  le_trans h1 h2

theorem strLe_antisymm {a b : String} (h1 : strLe a b) (h2 : strLe b a) :
    a = b := by
  have h3 := le_antisymm h1 h2
  cases a; cases b
  exact congrArg String.mk (by simpa using h3)

theorem strLe_total (a b : String) : strLe a b ∨ strLe b a :=
  le_total a.data b.data

instance : IsTrans (String × ℚ) freqLe where
  trans a b c hab hbc := by
    rcases hab with h1 | ⟨h1, h2⟩
    · rcases hbc with h3 | ⟨h3, h4⟩
      · exact Or.inl (lt_trans h3 h1)
      · exact Or.inl (h3 ▸ h1)
    · rcases hbc with h3 | ⟨h3, h4⟩
      · exact Or.inl (by rw [h1]; exact h3)
      · exact Or.inr ⟨h1.trans h3, strLe_trans h2 h4⟩

instance : IsAntisymm (String × ℚ) freqLe where
  antisymm a b hab hba := by
    rcases hab with h1 | ⟨h1, h2⟩ <;> rcases hba with h3 | ⟨h3, h4⟩
    · exact absurd h3 (asymm h1)
    · exact absurd h1 (by rw [h3]; exact lt_irrefl _)
    · exact absurd h3 (by rw [h1]; exact lt_irrefl _)
    · exact Prod.ext_iff.mpr ⟨strLe_antisymm h2 h4, h1⟩

instance : IsTotal (String × ℚ) freqLe where
  total a b := by
    rcases lt_trichotomy a.2 b.2 with h | h | h
    · exact Or.inr (Or.inl h)
    · rcases strLe_total a.1 b.1 with hs | hs
      · exact Or.inl (Or.inr ⟨h, hs⟩)
      · exact Or.inr (Or.inr ⟨h.symm, hs⟩)
    · exact Or.inl (Or.inl h)

instance : IsTrans (String × ℕ) grpLe where
  trans a b c hab hbc := by
    rcases hab with h1 | ⟨h1, h2⟩
    · rcases hbc with h3 | ⟨h3, h4⟩
      · exact Or.inl (lt_trans h3 h1)
      · exact Or.inl (h3 ▸ h1)
    · rcases hbc with h3 | ⟨h3, h4⟩
      · exact Or.inl (by rw [h1]; exact h3)
      · exact Or.inr ⟨h1.trans h3, strLe_trans h4 h2⟩

instance : IsAntisymm (String × ℕ) grpLe where
  antisymm a b hab hba := by
    rcases hab with h1 | ⟨h1, h2⟩ <;> rcases hba with h3 | ⟨h3, h4⟩
    · exact absurd h3 (asymm h1)
    · exact absurd h1 (by rw [h3]; exact lt_irrefl _)
    · exact absurd h3 (by rw [h1]; exact lt_irrefl _)
    · exact Prod.ext_iff.mpr ⟨strLe_antisymm h4 h2, h1⟩

instance : IsTotal (String × ℕ) grpLe where
  total a b := by
    rcases lt_trichotomy a.2 b.2 with h | h | h
    · exact Or.inr (Or.inl h)
    · rcases strLe_total a.1 b.1 with hs | hs
      · exact Or.inr (Or.inr ⟨h.symm, hs⟩)
      · exact Or.inl (Or.inr ⟨h, hs⟩)
    · exact Or.inl (Or.inl h)

theorem grpLe_refl (a : String × ℕ) : grpLe a a :=
  Or.inr ⟨rfl, strLe_refl _⟩

/-! ## `foldr max` facts for the map maximum -/

theorem foldr_max_perm {l1 l2 : List ℕ} (h : l1.Perm l2) :
    l1.foldr max 0 = l2.foldr max 0 := by
  induction h with
  | nil => rfl
  | cons x _ ih => simp only [List.foldr_cons, ih]
  | swap x y l => simp only [List.foldr_cons]; exact max_left_comm _ _ _
  | trans _ _ ih1 ih2 => exact ih1.trans ih2

theorem foldr_max_mem : ∀ l : List ℕ, l ≠ [] → l.foldr max 0 ∈ l := by
  intro l
  induction l with
  | nil => intro h; exact absurd rfl h
  | cons a t ih =>
    intro _
    cases t with
    | nil => simp
    | cons b t2 =>
      rcases max_choice a ((b :: t2).foldr max 0) with h | h
      · rw [List.foldr_cons, h]; exact List.mem_cons_self _ _
      · rw [List.foldr_cons, h]
        exact List.mem_cons_of_mem a (ih (by simp))

theorem le_foldr_max {x : ℕ} : ∀ {l : List ℕ}, x ∈ l → x ≤ l.foldr max 0 := by
  intro l
  induction l with
  | nil => intro h; cases h
  | cons a t ih =>
    intro hx
    rcases List.mem_cons.mp hx with rfl | hx
    · exact le_max_left _ _
    · exact le_trans (ih hx) (le_max_right _ _)

/-! ## Claim C3 -/

/-- Sorting with the (antisymmetric, total, transitive) comparator of
`get_normalized_word_frequencies` cancels the arbitrary `HashMap` iteration
order: any two orderings of the frequency map yield the same output. -/
theorem getNormalizedWordFrequencies_perm {l1 l2 : List (String × ℕ)}
    (h : l1.Perm l2) (mw : ℕ) :
    getNormalizedWordFrequencies l1 mw = getNormalizedWordFrequencies l2 mw := by
  by_cases h1 : l1 = []
  · subst h1
    have h2 : l2 = [] := (List.Perm.nil_eq h).symm
    rw [h2]
  · have h2 : l2 ≠ [] := fun he => h1 (List.Perm.eq_nil (he ▸ h))
    have hmax : maxCount (l1.map Prod.snd) = maxCount (l2.map Prod.snd) :=
      foldr_max_perm (h.map Prod.snd)
    have hmid :
        (l1.map fun kv => (kv.1, (kv.2 : ℚ) / (maxCount (l1.map Prod.snd) : ℚ))).Perm
          (l2.map fun kv => (kv.1, (kv.2 : ℚ) / (maxCount (l2.map Prod.snd) : ℚ))) := by
      rw [hmax]
      exact h.map _
    have hp :
        (List.insertionSort freqLe
            (l1.map fun kv => (kv.1, (kv.2 : ℚ) / (maxCount (l1.map Prod.snd) : ℚ)))).Perm
          (List.insertionSort freqLe
            (l2.map fun kv => (kv.1, (kv.2 : ℚ) / (maxCount (l2.map Prod.snd) : ℚ)))) :=
      ((List.perm_insertionSort _ _).trans hmid).trans (List.perm_insertionSort _ _).symm
    have hsort :
        List.insertionSort freqLe
            (l1.map fun kv => (kv.1, (kv.2 : ℚ) / (maxCount (l1.map Prod.snd) : ℚ)))
          = List.insertionSort freqLe
            (l2.map fun kv => (kv.1, (kv.2 : ℚ) / (maxCount (l2.map Prod.snd) : ℚ))) :=
      List.eq_of_perm_of_sorted hp (List.sorted_insertionSort _ _)
        (List.sorted_insertionSort _ _)
    simp only [getNormalizedWordFrequencies, if_neg h1, if_neg h2]
    rw [hsort]

/-- Claim C3: with a fixed seed every random decision draws from the same
seeded `WyRand` stream, and the only other run-to-run variation —
`HashMap` iteration order feeding the analyzer — is cancelled by the total
sort, so two runs of `generate_from_text` over any two orderings `l1 ~ l2`
of the frequency map, with the same configuration, collaborators, and rng
state, produce the identical placement sequence. -/
theorem generateFromText_deterministic {σ π : Type}
    (place : String → ℚ → σ → Except ℚ (π × ℚ) × σ) (commit : π → σ → σ)
    (repeatTok : Bool) (relativeScaling minFontSize : ℚ)
    (startFontSize : String → ℚ) (st0 : σ) (maxWords : ℕ)
    (l1 l2 : List (String × ℕ)) (hperm : l1.Perm l2) :
    generateFromText place commit repeatTok relativeScaling minFontSize
        startFontSize st0 (getNormalizedWordFrequencies l1 maxWords)
      = generateFromText place commit repeatTok relativeScaling minFontSize
        startFontSize st0 (getNormalizedWordFrequencies l2 maxWords) := by
  rw [getNormalizedWordFrequencies_perm hperm]

/-- Witness for `generateFromText_deterministic` on the two orderings of a
two-entry frequency map. -/
theorem generateFromText_deterministic_witness :
    [("a", 1), ("b", 2)].Perm [("b", (2 : ℕ)), ("a", 1)]
    ∧ generateFromText (σ := Unit) (π := Unit)
        (fun _ _ s => (Except.error 0, s)) (fun _ s => s) false (1 / 2) 4
        (fun _ => 10) () (getNormalizedWordFrequencies [("a", 1), ("b", 2)] 200)
      = generateFromText (σ := Unit) (π := Unit)
        (fun _ _ s => (Except.error 0, s)) (fun _ s => s) false (1 / 2) 4
        (fun _ => 10) () (getNormalizedWordFrequencies [("b", 2), ("a", 1)] 200) :=
  ⟨List.Perm.swap _ _ _,
    generateFromText_deterministic _ _ _ _ _ _ _ 200 _ _ (List.Perm.swap _ _ _)⟩

/-! ## Claim C5 -/

/-- Claim C5: for a nonempty frequency map (all counts are at least 1), the
normalized output has every weight in `(0, 1]`, attains the weight 1 (so
the maximum weight is exactly 1), and has at most `max_words` entries
whenever `max_words > 0`. -/
theorem getNormalizedWordFrequencies_bounds (l : List (String × ℕ)) (mw : ℕ)
    (hne : l ≠ []) (hpos : ∀ kv ∈ l, 0 < kv.2) :
    (∀ e ∈ getNormalizedWordFrequencies l mw, 0 < e.2 ∧ e.2 ≤ 1)
    ∧ (∃ e ∈ getNormalizedWordFrequencies l mw, e.2 = 1)
    ∧ (0 < mw → (getNormalizedWordFrequencies l mw).length ≤ mw) := by
  have hMmem : maxCount (l.map Prod.snd) ∈ l.map Prod.snd :=
    foldr_max_mem _ (by simpa using hne)
  obtain ⟨kv, hkv, hkvM⟩ := List.mem_map.mp hMmem
  have hMpos : 0 < maxCount (l.map Prod.snd) := hkvM ▸ hpos kv hkv
  have hMcast : (0 : ℚ) < (maxCount (l.map Prod.snd) : ℚ) := by exact_mod_cast hMpos
  have hSmem : ∀ e ∈ List.insertionSort freqLe
      (l.map fun kv2 => (kv2.1, (kv2.2 : ℚ) / (maxCount (l.map Prod.snd) : ℚ))),
      0 < e.2 ∧ e.2 ≤ 1 := by
    intro e he
    rw [List.mem_insertionSort] at he
    obtain ⟨kv2, hkv2, rfl⟩ := List.mem_map.mp he
    constructor
    · apply div_pos _ hMcast
      exact_mod_cast hpos kv2 hkv2
    · rw [div_le_one hMcast]
      exact_mod_cast le_foldr_max (List.mem_map_of_mem Prod.snd hkv2)
  have hone : (kv.1, (1 : ℚ)) ∈ List.insertionSort freqLe
      (l.map fun kv2 => (kv2.1, (kv2.2 : ℚ) / (maxCount (l.map Prod.snd) : ℚ))) := by
    rw [List.mem_insertionSort]
    apply List.mem_map.mpr
    refine ⟨kv, hkv, ?_⟩
    rw [hkvM, div_self (ne_of_gt hMcast)]
  have hsorted := List.sorted_insertionSort freqLe
    (l.map fun kv2 => (kv2.1, (kv2.2 : ℚ) / (maxCount (l.map Prod.snd) : ℚ)))
  have hSne : List.insertionSort freqLe
      (l.map fun kv2 => (kv2.1, (kv2.2 : ℚ) / (maxCount (l.map Prod.snd) : ℚ))) ≠ [] := by
    intro h0
    rw [h0] at hone
    exact List.not_mem_nil _ hone
  obtain ⟨x, t, hS⟩ := List.exists_cons_of_ne_nil hSne
  have hxone : x.2 = 1 := by
    rw [hS] at hone hsorted hSmem
    rcases List.mem_cons.mp hone with he | he
    · rw [← he]
    · have hrel := (List.sorted_cons.mp hsorted).1 _ he
      rcases hrel with hlt | ⟨heq, _⟩
      · exact le_antisymm (hSmem x (List.mem_cons_self _ _)).2 (le_of_lt hlt)
      · exact heq
  simp only [getNormalizedWordFrequencies, if_neg hne]
  refine ⟨?_, ?_, ?_⟩
  · intro e he
    apply hSmem
    by_cases hmw : 0 < mw
    · rw [if_pos hmw] at he
      exact List.take_subset _ _ he
    · rw [if_neg hmw] at he
      exact he
  · refine ⟨x, ?_, hxone⟩
    by_cases hmw : 0 < mw
    · rw [if_pos hmw, hS]
      obtain ⟨k, rfl⟩ := Nat.exists_eq_succ_of_ne_zero (Nat.pos_iff_ne_zero.mp hmw)
      rw [List.take_succ_cons]
      exact List.mem_cons_self _ _
    · rw [if_neg hmw, hS]
      exact List.mem_cons_self _ _
  · intro hmw
    rw [if_pos hmw, List.length_take]
    exact min_le_left _ _

/-- Witness for `getNormalizedWordFrequencies_bounds` on a two-entry
frequency map with the default `max_words = 200`. -/
theorem getNormalizedWordFrequencies_bounds_witness :
    (([("a", 1), ("b", 2)] : List (String × ℕ)) ≠ []
      ∧ ∀ kv ∈ ([("a", 1), ("b", 2)] : List (String × ℕ)), 0 < kv.2)
    ∧ ((∀ e ∈ getNormalizedWordFrequencies [("a", 1), ("b", 2)] 200, 0 < e.2 ∧ e.2 ≤ 1)
      ∧ (∃ e ∈ getNormalizedWordFrequencies [("a", 1), ("b", 2)] 200, e.2 = 1)
      ∧ (0 < 200 → (getNormalizedWordFrequencies [("a", 1), ("b", 2)] 200).length ≤ 200)) :=
  ⟨⟨by decide, by decide⟩,
    getNormalizedWordFrequencies_bounds [("a", 1), ("b", 2)] 200 (by decide) (by decide)⟩

/-! ## Claim C6 -/

/-- The first element of a group sorted by the `keep_common_case` comparator
belongs to the group and dominates every group member under `grpLe`
(highest count, ties broken toward the lexicographically greater surface
form). -/
theorem sortedHead_spec (grp : List (String × ℕ)) (hne : grp ≠ []) :
    (List.insertionSort grpLe grp).headD ("", 0) ∈ grp
    ∧ ∀ q ∈ grp, grpLe ((List.insertionSort grpLe grp).headD ("", 0)) q := by
  have hSne : List.insertionSort grpLe grp ≠ [] := by
    intro h0
    apply hne
    have := List.length_insertionSort grpLe grp
    rw [h0] at this
    exact List.length_eq_zero.mp this.symm
  obtain ⟨x, t, hS⟩ := List.exists_cons_of_ne_nil hSne
  have hsorted := List.sorted_insertionSort grpLe grp
  rw [hS] at hsorted
  rw [hS, List.headD_cons]
  constructor
  · have hx : x ∈ List.insertionSort grpLe grp := by
      rw [hS]; exact List.mem_cons_self _ _
    exact (List.mem_insertionSort grpLe).mp hx
  · intro q hq
    have hq2 : q ∈ x :: t := by
      rw [← hS]
      exact (List.mem_insertionSort grpLe).mpr hq
    rcases List.mem_cons.mp hq2 with rfl | hq3
    · exact grpLe_refl _
    · exact (List.sorted_cons.mp hsorted).1 _ hq3

/-- Claim C6: `keep_common_case` merges surface forms that agree under
lower-casing.  Over any ordering of a frequency map with distinct keys:
every output entry's count is the sum of the counts of its lower-case
class, its surface form occurs in the input and dominates every class
member under `grpLe` (strictly higher count, or equal count and
lexicographically no smaller — the case-tie-break rule); every input entry
is represented by exactly one output entry for its lower-case class.
Instantiated at the tokens of `"Rust rust RUST"` (each counted once) this
yields the single entry `("rust", 3)`. -/
theorem keepCommonCase_merges (l : List (String × ℕ))
    (hnd : (l.map Prod.fst).Nodup) :
    (∀ p ∈ keepCommonCase l,
        p.2 = ((l.filter fun kv => strToLower kv.1 = strToLower p.1).map Prod.snd).sum
        ∧ (∃ c0, (p.1, c0) ∈ l
            ∧ ∀ q ∈ l, strToLower q.1 = strToLower p.1 → grpLe (p.1, c0) q))
    ∧ (∀ q ∈ l, ∃ p ∈ keepCommonCase l, strToLower p.1 = strToLower q.1)
    ∧ ((keepCommonCase l).map fun p => strToLower p.1).Nodup := by
  have hne : ∀ lc ∈ lowerClasses l, (l.filter fun kv => strToLower kv.1 = lc) ≠ [] := by
    intro lc hlc
    obtain ⟨kv, hkv, he⟩ := List.mem_map.mp (List.mem_dedup.mp hlc)
    intro h0
    have hm : kv ∈ l.filter fun kv2 => strToLower kv2.1 = lc :=
      List.mem_filter.mpr ⟨hkv, by simp [he]⟩
    rw [h0] at hm
    exact List.not_mem_nil _ hm
  have hreplower : ∀ lc ∈ lowerClasses l,
      strToLower ((List.insertionSort grpLe (l.filter fun kv => strToLower kv.1 = lc)).headD
        ("", 0)).1 = lc := by
    intro lc hlc
    have hx := (sortedHead_spec _ (hne lc hlc)).1
    have := (List.mem_filter.mp hx).2
    simpa using this
  have hmem : ∀ p, p ∈ keepCommonCase l ↔ ∃ lc ∈ lowerClasses l,
      ((List.insertionSort grpLe (l.filter fun kv => strToLower kv.1 = lc)).headD ("", 0)).1
        = p.1
      ∧ ((l.filter fun kv => strToLower kv.1 = lc).map Prod.snd).sum = p.2 := by
    intro p
    simp only [keepCommonCase, groupByLower, List.map_map, List.mem_map, Function.comp]
    constructor
    · rintro ⟨lc, hlc, rfl⟩
      exact ⟨lc, hlc, rfl, rfl⟩
    · rintro ⟨lc, hlc, h1, h2⟩
      refine ⟨lc, hlc, ?_⟩
      rw [h1, h2]
  refine ⟨?_, ?_, ?_⟩
  · intro p hp
    obtain ⟨lc, hlc, hp1, hp2⟩ := (hmem p).mp hp
    have hlower : strToLower p.1 = lc := by rw [← hp1]; exact hreplower lc hlc
    obtain ⟨hxmem, hxdom⟩ := sortedHead_spec _ (hne lc hlc)
    constructor
    · rw [hlower, ← hp2]
    · refine ⟨((List.insertionSort grpLe (l.filter fun kv => strToLower kv.1 = lc)).headD
        ("", 0)).2, ?_, ?_⟩
      · rw [← hp1]
        simpa using (List.mem_filter.mp hxmem).1
      · intro q hq hql
        have hqf : q ∈ l.filter fun kv => strToLower kv.1 = lc :=
          List.mem_filter.mpr ⟨hq, by simp [hql, hlower]⟩
        have := hxdom q hqf
        rw [← hp1]
        simpa using this
  · intro q hq
    have hlc : strToLower q.1 ∈ lowerClasses l :=
      List.mem_dedup.mpr (List.mem_map_of_mem _ hq)
    refine ⟨(((List.insertionSort grpLe
        (l.filter fun kv => strToLower kv.1 = strToLower q.1)).headD ("", 0)).1,
        ((l.filter fun kv => strToLower kv.1 = strToLower q.1).map Prod.snd).sum), ?_, ?_⟩
    · exact (hmem _).mpr ⟨strToLower q.1, hlc, rfl, rfl⟩
    · exact hreplower _ hlc
  · have hmapeq : ((keepCommonCase l).map fun p => strToLower p.1) = lowerClasses l := by
      simp only [keepCommonCase, groupByLower, List.map_map]
      have : ∀ lc ∈ lowerClasses l,
          ((fun p : String × ℕ => strToLower p.1) ∘
            (fun g : String × List (String × ℕ) =>
              (((List.insertionSort grpLe g.2).headD ("", 0)).1, (g.2.map Prod.snd).sum)) ∘
            (fun lc => (lc, l.filter fun kv => strToLower kv.1 = lc))) lc = id lc := by
        intro lc hlc
        exact hreplower lc hlc
      rw [List.map_congr_left this, List.map_id]
    rw [hmapeq]
    exact List.nodup_dedup _

/-- Witness for `keepCommonCase_merges` at the claim's concrete instance:
counting `"Rust rust RUST"` (with `min_word_length = 1`, each token occurs
once) and case-folding yields the single entry `("rust", 3)` — one entry of
combined count 3 whose surface form wins the case tie-break. -/
theorem keepCommonCase_merges_witness :
    (([("Rust", 1), ("rust", 1), ("RUST", 1)] : List (String × ℕ)).map Prod.fst).Nodup
    ∧ ((∀ p ∈ keepCommonCase [("Rust", 1), ("rust", 1), ("RUST", 1)],
          p.2 = (([("Rust", 1), ("rust", 1), ("RUST", 1)].filter
              fun kv => strToLower kv.1 = strToLower p.1).map Prod.snd).sum
          ∧ (∃ c0, (p.1, c0) ∈ [("Rust", 1), ("rust", 1), ("RUST", 1)]
              ∧ ∀ q ∈ [("Rust", 1), ("rust", 1), ("RUST", 1)],
                  strToLower q.1 = strToLower p.1 → grpLe (p.1, c0) q))
      ∧ (∀ q ∈ [("Rust", 1), ("rust", 1), ("RUST", 1)],
          ∃ p ∈ keepCommonCase [("Rust", 1), ("rust", 1), ("RUST", 1)],
            strToLower p.1 = strToLower q.1)
      ∧ ((keepCommonCase [("Rust", 1), ("rust", 1), ("RUST", 1)]).map
          fun p => strToLower p.1).Nodup)
    ∧ keepCommonCase [("Rust", 1), ("rust", 1), ("RUST", 1)] = [("rust", 3)] :=
  ⟨by decide, keepCommonCase_merges _ (by decide), by decide⟩

/-! ## Claim C1 : bridging `to_summed_area_table` to the prefix-sum view -/

theorem satRowAux_length : ∀ (row prev : List ℕ) (s : ℕ),
    (satRowAux s row prev).length = row.length := by
  intro row
  induction row with
  | nil => intro prev s; cases prev <;> rfl
  | cons el els ih =>
    intro prev s
    cases prev with
    | nil => rfl
    | cons pe pes => simp [satRowAux, ih]

theorem satRowAux_getD : ∀ (row prev : List ℕ) (s x : ℕ),
    x < row.length → row.length ≤ prev.length →
    (satRowAux s row prev).getD x 0
      = s + Finset.sum (Finset.range (x + 1)) (fun j => row.getD j 0)
        + prev.getD x 0 := by
  intro row
  induction row with
  | nil => intro prev s x hx; simp at hx
  | cons el els ih =>
    intro prev s x hx hlen
    cases prev with
    | nil => simp at hlen
    | cons pe pes =>
      cases x with
      | zero => simp [satRowAux, Finset.sum_range_one]; ring
      | succ x2 =>
        have h1 : x2 < els.length := by simpa using hx
        have h2 : els.length ≤ pes.length := by simpa using hlen
        have hstep := ih pes (s + el) x2 h1 h2
        have hsum : Finset.sum (Finset.range (x2 + 1 + 1))
              (fun j => (el :: els).getD j 0)
            = Finset.sum (Finset.range (x2 + 1)) (fun j => els.getD j 0) + el := by
          rw [Finset.sum_range_succ']
          simp
        simp only [satRowAux, List.getD_cons_succ]
        rw [hstep, hsum]
        ring

theorem satRows_length : ∀ (rows : List (List ℕ)) (prev : List ℕ),
    (satRows prev rows).length = rows.length := by
  intro rows
  induction rows with
  | nil => intro prev; rfl
  | cons r rest ih => intro prev; simp [satRows, ih]

theorem satRows_row_length (w : ℕ) : ∀ (rows : List (List ℕ)) (prev : List ℕ),
    (∀ r ∈ rows, r.length = w) → prev.length = w →
    ∀ r ∈ satRows prev rows, r.length = w := by
  intro rows
  induction rows with
  | nil => intro prev _ _ r hr; cases hr
  | cons row rest ih =>
    intro prev huni hprev r hr
    rcases List.mem_cons.mp hr with rfl | hr2
    · rw [satRowAux_length]
      exact huni row (List.mem_cons_self _ _)
    · exact ih (satRowAux 0 row prev)
        (fun r2 hr2 => huni r2 (List.mem_cons_of_mem _ hr2))
        (by rw [satRowAux_length]; exact huni row (List.mem_cons_self _ _)) r hr2

theorem satRows_getD (w : ℕ) : ∀ (rows : List (List ℕ)) (prev : List ℕ),
    (∀ r ∈ rows, r.length = w) → prev.length = w →
    ∀ y x, y < rows.length → x < w →
    ((satRows prev rows).getD y []).getD x 0
      = prev.getD x 0
        + Finset.sum (Finset.range (y + 1)) (fun i =>
            Finset.sum (Finset.range (x + 1)) (fun j => (rows.getD i []).getD j 0)) := by
  intro rows
  induction rows with
  | nil => intro prev _ _ y x hy _; simp at hy
  | cons row rest ih =>
    intro prev huni hprev y x hy hx
    have hrw : row.length = w := huni row (List.mem_cons_self _ _)
    cases y with
    | zero =>
      simp only [satRows, List.getD_cons_zero]
      rw [satRowAux_getD row prev 0 x (by omega) (by omega)]
      simp [Finset.sum_range_one]
      ring
    | succ y2 =>
      have hy2 : y2 < rest.length := by simpa using hy
      simp only [satRows, List.getD_cons_succ]
      rw [ih (satRowAux 0 row prev)
        (fun r2 hr2 => huni r2 (List.mem_cons_of_mem _ hr2))
        (by rw [satRowAux_length]; exact hrw) y2 x hy2 hx]
      rw [satRowAux_getD row prev 0 x (by omega) (by omega)]
      have hsplit : Finset.sum (Finset.range (y2 + 1 + 1)) (fun i =>
            Finset.sum (Finset.range (x + 1)) (fun j => ((row :: rest).getD i []).getD j 0))
          = Finset.sum (Finset.range (y2 + 1)) (fun i =>
              Finset.sum (Finset.range (x + 1)) (fun j => (rest.getD i []).getD j 0))
            + Finset.sum (Finset.range (x + 1)) (fun j => row.getD j 0) := by
        rw [Finset.sum_range_succ']
        simp
      rw [hsplit]
      ring

theorem flatten_length_uniform (w : ℕ) : ∀ rows : List (List ℕ),
    (∀ r ∈ rows, r.length = w) → rows.flatten.length = rows.length * w := by
  intro rows
  induction rows with
  | nil => intro _; simp
  | cons r rest ih =>
    intro huni
    simp only [List.flatten_cons, List.length_append, List.length_cons]
    rw [ih (fun r2 hr2 => huni r2 (List.mem_cons_of_mem _ hr2)),
      huni r (List.mem_cons_self _ _)]
    ring

theorem flatten_getD (w : ℕ) : ∀ rows : List (List ℕ),
    (∀ r ∈ rows, r.length = w) → ∀ y x, y < rows.length → x < w →
    rows.flatten.getD (y * w + x) 0 = (rows.getD y []).getD x 0 := by
  intro rows
  induction rows with
  | nil => intro _ y x hy _; simp at hy
  | cons r rest ih =>
    intro huni y x hy hx
    have hrw : r.length = w := huni r (List.mem_cons_self _ _)
    cases y with
    | zero =>
      simp only [List.flatten_cons, List.getD_cons_zero, Nat.zero_mul, Nat.zero_add]
      exact List.getD_append _ _ _ _ (by omega)
    | succ y2 =>
      have he : (y2 + 1) * w + x = r.length + (y2 * w + x) := by rw [hrw]; ring
      simp only [List.flatten_cons, List.getD_cons_succ]
      rw [he, List.getD_append_right _ _ _ _ (Nat.le_add_right _ _),
        Nat.add_sub_cancel_left]
      exact ih (fun r2 hr2 => huni r2 (List.mem_cons_of_mem _ hr2)) y2 x
        (by simpa using hy) hx

theorem chunksGo_flatten (w : ℕ) : ∀ rows : List (List ℕ),
    (∀ r ∈ rows, r.length = w) →
    chunksGo w rows.length rows.flatten = rows := by
  intro rows
  induction rows with
  | nil => intro _; rfl
  | cons r rest ih =>
    intro huni
    have hrw : r.length = w := huni r (List.mem_cons_self _ _)
    simp only [List.length_cons, List.flatten_cons, chunksGo]
    have htake : (r ++ rest.flatten).take w = r := by
      rw [← hrw]; exact List.take_left _ _
    have hdrop : (r ++ rest.flatten).drop w = rest.flatten := by
      rw [← hrw]; exact List.drop_left _ _
    rw [htake, hdrop, ih (fun r2 hr2 => huni r2 (List.mem_cons_of_mem _ hr2))]

theorem toSummedAreaTable_flatten (w : ℕ) (hw : 0 < w) (rows : List (List ℕ))
    (huni : ∀ r ∈ rows, r.length = w) :
    toSummedAreaTable rows.flatten w 0
      = (satRows (List.replicate w 0) rows).flatten := by
  unfold toSummedAreaTable chunksExact chunksRem
  rw [if_neg (by omega)]
  rw [flatten_length_uniform w rows huni, Nat.mul_div_cancel _ hw,
    chunksGo_flatten w rows huni]
  simp [List.drop_length, flatten_length_uniform w rows huni]

theorem toSummedAreaTable_getD (w : ℕ) (hw : 0 < w) (rows : List (List ℕ))
    (huni : ∀ r ∈ rows, r.length = w) (y x : ℕ)
    (hy : y < rows.length) (hx : x < w) :
    (toSummedAreaTable rows.flatten w 0).getD (y * w + x) 0 = satValue rows y x := by
  rw [toSummedAreaTable_flatten w hw rows huni]
  rw [flatten_getD w (satRows (List.replicate w 0) rows)
    (satRows_row_length w rows (List.replicate w 0) huni (by simp)) y x
    (by rw [satRows_length]; exact hy) hx]
  rw [satRows_getD w rows (List.replicate w 0) huni (by simp) y x hy hx]
  have hrep : (List.replicate w (0 : ℕ)).getD x 0 = 0 := by
    rcases lt_or_ge x w with h | h
    · rw [List.getD_eq_getElem _ _ (by simpa using h)]
      simp
    · rw [List.getD_eq_default _ _ (by simpa using h)]
  rw [hrep]
  simp [satValue, gridCell]

theorem satValue_quad (rows : List (List ℕ)) (x y w h : ℕ) :
    (satValue rows y x : ℤ) + satValue rows (y + h) (x + w)
      - satValue rows y (x + w) - satValue rows (y + h) x
    = Finset.sum (Finset.Ico (y + 1) (y + h + 1)) (fun i =>
        Finset.sum (Finset.Ico (x + 1) (x + w + 1)) (fun j =>
          (gridCell rows i j : ℤ))) := by
  have hy1 : y + 1 ≤ y + h + 1 := by omega
  have hx1 : x + 1 ≤ x + w + 1 := by omega
  have exp : ∀ a b : ℕ, (satValue rows a b : ℤ)
      = Finset.sum (Finset.range (a + 1)) (fun i =>
          Finset.sum (Finset.range (b + 1)) (fun j => (gridCell rows i j : ℤ))) := by
    intro a b
    unfold satValue
    push_cast
    rfl
  have inner : ∀ i : ℕ,
      Finset.sum (Finset.Ico (x + 1) (x + w + 1)) (fun j => (gridCell rows i j : ℤ))
        = Finset.sum (Finset.range (x + w + 1)) (fun j => (gridCell rows i j : ℤ))
          - Finset.sum (Finset.range (x + 1)) (fun j => (gridCell rows i j : ℤ)) :=
    fun i => Finset.sum_Ico_eq_sub _ hx1
  rw [Finset.sum_Ico_eq_sub _ hy1]
  simp only [inner]
  rw [Finset.sum_sub_distrib, Finset.sum_sub_distrib]
  rw [exp, exp, exp, exp]
  have hadd : ∀ a b : ℕ, a + b + 1 = a + 1 + b := by omega
  rw [hadd y h, hadd x w]
  ring

/-- Claim C1 (counterexample): for the 2×2 grid with its single occupied
cell at `(0, 0)` — summed-area table `to_summed_area_table([1,0,0,0], 2, 0)
= [1,1,1,1]` — the query `region_is_empty(table, 2, x := 0, y := 0, w := 1,
h := 1)` returns `true`, yet the 1×1 rectangle whose top-left cell is
`(0, 0)` contains the occupied cell: the claimed iff fails at this input. -/
theorem regionIsEmpty_anchor_counterexample :
    regionIsEmpty (toSummedAreaTable [1, 0, 0, 0] 2 0) 2 0 0 1 1 = true
    ∧ ([1, 0, 0, 0] : List ℕ).getD 0 0 ≠ 0 := by
  constructor
  · decide
  · decide

/-- Claim C1 (amended): the summed-area table built by
`to_summed_area_table` is the *inclusive* prefix sum (no zero padding row or
column), so the four lookups of `region_is_empty(table, tw, x, y, w, h)`
cancel to the sum of the `w × h` rectangle whose top-left cell is
`(x + 1, y + 1)` — one cell down-right of the anchor: the query returns
`true` iff every cell of *that* rectangle is unoccupied. -/
theorem regionIsEmpty_shifted_iff (rows : List (List ℕ)) (tw w h x y : ℕ)
    (huni : ∀ r ∈ rows, r.length = tw)
    (hx : x + w < tw) (hy : y + h < rows.length) :
    regionIsEmpty (toSummedAreaTable rows.flatten tw 0) tw x y w h = true
    ↔ ∀ i j, y < i → i ≤ y + h → x < j → j ≤ x + w → gridCell rows i j = 0 := by
  have htw : 0 < tw := by omega
  have h1 := toSummedAreaTable_getD tw htw rows huni y x (by omega) (by omega)
  have h2 := toSummedAreaTable_getD tw htw rows huni y (x + w) (by omega) hx
  have h3 := toSummedAreaTable_getD tw htw rows huni (y + h) x hy (by omega)
  have h4 := toSummedAreaTable_getD tw htw rows huni (y + h) (x + w) hy hx
  have e2 : y * tw + x + w = y * tw + (x + w) := by ring
  have e4 : (y + h) * tw + x + w = (y + h) * tw + (x + w) := by ring
  simp only [regionIsEmpty]
  rw [e2, e4, h1, h2, h3, h4, decide_eq_true_eq]
  rw [satValue_quad rows x y w h]
  have hcast : Finset.sum (Finset.Ico (y + 1) (y + h + 1)) (fun i =>
        Finset.sum (Finset.Ico (x + 1) (x + w + 1)) (fun j => (gridCell rows i j : ℤ)))
      = ((Finset.sum (Finset.Ico (y + 1) (y + h + 1)) (fun i =>
          Finset.sum (Finset.Ico (x + 1) (x + w + 1)) (fun j => gridCell rows i j)) : ℕ)
          : ℤ) := by
    push_cast
    rfl
  rw [hcast, Nat.cast_eq_zero, Finset.sum_eq_zero_iff]
  constructor
  · intro hz i j hyi hiy hxj hjx
    have hi : i ∈ Finset.Ico (y + 1) (y + h + 1) := Finset.mem_Ico.mpr (by omega)
    have hrow := hz i hi
    rw [Finset.sum_eq_zero_iff] at hrow
    exact hrow j (Finset.mem_Ico.mpr (by omega))
  · intro hz i hi
    rw [Finset.sum_eq_zero_iff]
    intro j hj
    rw [Finset.mem_Ico] at hi hj
    exact hz i j (by omega) (by omega) (by omega) (by omega)

/-- Witness for `regionIsEmpty_shifted_iff` on the 2×2 grid whose only
occupied cell is `(1, 1)`, queried with the 1×1 rect anchored at
`(0, 0)`. -/
theorem regionIsEmpty_shifted_iff_witness :
    ((∀ r ∈ [[0, 0], [0, 7]], List.length r = 2) ∧ 0 + 1 < 2 ∧ 0 + 1 < 2)
    ∧ (regionIsEmpty (toSummedAreaTable ([[0, 0], [0, 7]] : List (List ℕ)).flatten 2 0)
          2 0 0 1 1 = true
        ↔ ∀ i j, 0 < i → i ≤ 0 + 1 → 0 < j → j ≤ 0 + 1 →
            gridCell [[0, 0], [0, 7]] i j = 0) :=
  ⟨⟨by decide, by decide, by decide⟩,
    regionIsEmpty_shifted_iff [[0, 0], [0, 7]] 2 1 1 0 0 (by decide) (by decide)
      (by decide)⟩
